import Mathlib

/-!
Verification of the versioned-migration engine of `MetadataVersioned`
(`src/packages/types/src/metadata/MetadataVersioned.ts`).

The class wraps a decoded tagged union `{ magicNumber, metadata }` whose active
tag (`#metadata().index`) is the record's intrinsic version, and exposes lazy,
memoized upgrade accessors `asV10` .. `asV15` and `asLatest`, a downgrade
assert, a calls-only projection pinned to version 14, a unique-type extraction
and a `toJSON` that forces `asLatest` first.

Embedding notes:
* The per-step upgrade functions `toV10` .. `toV15` live outside `src/`; the
  spec (§2) treats them as external pure functions whose internals are out of
  scope.  They are therefore embedded *freely*: `Rep.upgraded target mv prev`
  records exactly which step was invoked, on which predecessor and with which
  `metaVersion` context argument — precisely the data the engine passes.
* The class mutates a private `Map` (`#converted`) and appends nothing else;
  the engine is embedded in explicit state-passing style, with a ghost field
  `calls` tracing every invocation of a `fromPrev` upgrade function (used to
  state the memoization / context-argument claims).
* Fallible accessors return `Except MVError`.
-/

namespace PjsApi

/-- A type registry, consumed as an opaque dependency (spec §1).  `known` is the
set of type identifiers it can resolve; `normalized` records whether the
latest-only alias normalization (applied by `toLatest`, see below) has been
performed on it. -/
structure Registry where
  normalized : Bool
  known : List String
  deriving Repr, DecidableEq

/-- A decoded versioned representation.  The concrete per-version shapes are
out of scope (spec §1); upgrade steps are embedded freely, so a representation
records the exact chain of external transforms that produced it.
`nativeV tag refs` is a native payload arm carrying the type identifiers it
references (used only by the unique-type extraction). -/
inductive Rep where
  | nativeV (tag : Nat) (refs : List String)
  | upgraded (target : Nat) (metaVersion : Nat) (prev : Rep)
  | callsOnly (src : Rep)
  deriving Repr, DecidableEq

/-- The tagged union `MetadataAll` as decoded: the active tag `index` (the
intrinsic version) and the representation of the active arm. -/
structure Payload where
  index : Nat
  native : Rep
  deriving Repr, DecidableEq

/-- Cache keys of `#converted`: `MetaVersions = Exclude<MetaAll, 9> | 'latest'`. -/
inductive MKey where
  | num (v : Nat)
  | latest
  deriving Repr, DecidableEq

/-- Errors raised by the engine. -/
inductive MVError where
  | downgrade (src target : Nat)
  | unresolvedType (id : String)
  deriving Repr, DecidableEq

/-- `KNOWN_VERSIONS = [15, 14, 13, 12, 11, 10, 9]` (newest first). -/
def KNOWN_VERSIONS : List Nat := [15, 14, 13, 12, 11, 10, 9]

/-- `LATEST_VERSION = KNOWN_VERSIONS[0]`. -/
def LATEST_VERSION : Nat := KNOWN_VERSIONS.headD 0

/-- `TO_CALLS_VERSION = 14` — the deliberate compatibility pin for the
calls-only projection (not `LATEST_VERSION`). -/
def TO_CALLS_VERSION : Nat := 14

/-- The `MetadataVersioned` instance state: the wrapped struct fields
(`magicNumber`, `metadata` = `payload`), the registry reference, the private
`#converted` cache, and the ghost trace `calls` of `fromPrev` invocations
(key it was computed for, `metaVersion` argument passed). -/
structure MetadataVersioned where
  magicNumber : Nat
  payload : Payload
  registry : Registry
  converted : List (MKey × Rep)
  calls : List (MKey × Nat)
  deriving Repr, DecidableEq

/-- `get version (): number { return this.#metadata().index; }` -/
def MetadataVersioned.version (m : MetadataVersioned) : Nat :=
  m.payload.index

/-- Lookup in the `#converted` map (`Map.has` / `Map.get`). -/
def mlookup : List (MKey × Rep) → MKey → Option Rep
  | [], _ => none
  | (k, r) :: rest, key => if k = key then some r else mlookup rest key

/-- `#assertVersion`: throws when the intrinsic version exceeds the request,
otherwise reports whether the request equals the intrinsic version. -/
def assertVersion (m : MetadataVersioned) (target : Nat) : Except MVError Bool :=
  if m.version > target then .error (.downgrade m.version target)
  else .ok (m.version == target)

/-- `get asV9`: asserts (discarding the boolean) and returns the V9 arm of the
union.  After the assert the intrinsic version is at most 9, and every known
record has intrinsic version at least 9, so the V9 arm is the native payload. -/
def asV9 (m : MetadataVersioned) : Except MVError Rep :=
  match assertVersion m 9 with
  | .error e => .error e
  | .ok _ => .ok m.payload.native

/-- Modelled from the spec: the upgrade steps `toV10` .. `toV15`
(`metadata/v9/toV10.js` … `metadata/v14/toV15.js`) are not under `src/`; per
spec §2 they are external pure functions invoked only by this engine, so the
free embedding records the invocation: target version, `metaVersion` context
argument, and predecessor representation. -/
def upgradeStep (target : Nat) (metaVersion : Nat) (prev : Rep) : Rep :=
  Rep.upgraded target metaVersion prev

/-- `#getVersion(v, toV{v})` for a numeric version `v`, i.e. the body of the
getters `asV10` .. `asV15` (the source dispatches to `this['asV' + (v-1)]` for
the predecessor, which is the previous getter, or `asV9` when `v - 1 = 9`).
Defined on all of `Nat` for totality; the class surface only ever invokes it
with `10 ≤ v ≤ 15`.  In the `v = 0` equation the cache branch is unreachable
(`assertVersion` succeeds only when the intrinsic version is `0 = v`, which is
the native-return branch), so it mirrors the native return. -/
def getNum : Nat → MetadataVersioned → Except MVError (Rep × MetadataVersioned)
  | 0, m =>
    match assertVersion m 0 with
    | .error e => .error e
    | .ok _ => .ok (m.payload.native, m)
  | w + 1, m =>
    match assertVersion m (w + 1) with
    | .error e => .error e
    | .ok true => .ok (m.payload.native, m)
    | .ok false =>
      match mlookup m.converted (MKey.num (w + 1)) with
      | some r => .ok (r, m)
      | none =>
        match (if w = 9 then (asV9 m).map (fun r => (r, m)) else getNum w m) with
        | .error e => .error e
        | .ok (prev, m1) =>
          let res := upgradeStep (w + 1) m1.version prev
          .ok (res, { m1 with
            converted := (MKey.num (w + 1), res) :: m1.converted,
            calls := m1.calls ++ [(MKey.num (w + 1), m1.version)] })

/-- `get asV10` .. `get asV15`. -/
def asV10 (m : MetadataVersioned) : Except MVError (Rep × MetadataVersioned) := getNum 10 m

def asV11 (m : MetadataVersioned) : Except MVError (Rep × MetadataVersioned) := getNum 11 m

def asV12 (m : MetadataVersioned) : Except MVError (Rep × MetadataVersioned) := getNum 12 m

def asV13 (m : MetadataVersioned) : Except MVError (Rep × MetadataVersioned) := getNum 13 m

def asV14 (m : MetadataVersioned) : Except MVError (Rep × MetadataVersioned) := getNum 14 m

def asV15 (m : MetadataVersioned) : Except MVError (Rep × MetadataVersioned) := getNum 15 m

/-- Modelled from the spec: `toLatest` (`metadata/v15/toLatest.js`) is not
under `src/`.  Per spec §4.1/§8 the latest conversion is structure-preserving
(`asLatest` is "equivalent to `asVersion(latestKnownVersion)`", "structurally
equal") and applies the latest-version-only normalization — alias rewriting —
to the registry; the `metaVersion` context argument does not alter the shape. -/
def toLatest (reg : Registry) (prev : Rep) (_metaVersion : Nat) : Rep × Registry :=
  (prev, { reg with normalized := true })

/-- `#getVersion('latest', toLatest)`: no `#assertVersion` (the guard is
short-circuited on the `'latest'` sentinel), predecessor is
`this['asV' + LATEST_VERSION]` = `asV15`. -/
def getLatest (m : MetadataVersioned) : Except MVError (Rep × MetadataVersioned) :=
  match mlookup m.converted MKey.latest with
  | some r => .ok (r, m)
  | none =>
    match asV15 m with
    | .error e => .error e
    | .ok (prev, m1) =>
      let pair := toLatest m1.registry prev m1.version
      .ok (pair.1, { m1 with
        registry := pair.2,
        converted := (MKey.latest, pair.1) :: m1.converted,
        calls := m1.calls ++ [(MKey.latest, m1.version)] })

/-- `get asLatest`. -/
def asLatest (m : MetadataVersioned) : Except MVError (Rep × MetadataVersioned) :=
  getLatest m

/-- The version-`v` accessor of the class surface: `asV9` (native arm behind
the monotonicity assert, no state) for `v = 9`, the `#getVersion` getters
otherwise. -/
def asVersion (m : MetadataVersioned) (v : Nat) : Except MVError (Rep × MetadataVersioned) :=
  if v = 9 then (asV9 m).map (fun r => (r, m))
  else getNum v m

/-- Modelled from the spec: `toCallsOnly` (`metadata/util`) is not under
`src/`; per spec §4.2 it is a stateless reduction of the latest representation
to the call-dispatch-relevant shape, consumed opaquely by this engine. -/
def toCallsOnly (_reg : Registry) (latest : Rep) : Rep :=
  Rep.callsOnly latest

/-- Modelled from the spec: `registry.createTypeUnsafe('MetadataAll', [shape,
ver])` re-wraps `shape` as the active arm of a fresh tagged union with tag
`ver` (spec §4.2: "re-wraps the reduced shape into a brand-new VersionedRecord
tagged with a fixed ... version number"). -/
def createMetadataAll (shape : Rep) (ver : Nat) : Payload :=
  { index := ver, native := shape }

/-- `get asCallsOnly`: a brand-new `MetadataVersioned` (fresh cache, fresh
ghost trace) wrapping the reduced latest shape pinned at `TO_CALLS_VERSION`;
the first component is the new record, the second the post-call state of the
source record. -/
def asCallsOnly (m : MetadataVersioned) :
    Except MVError (MetadataVersioned × MetadataVersioned) :=
  match getLatest m with
  | .error e => .error e
  | .ok (latest, m1) =>
    .ok ({ magicNumber := m.magicNumber,
           payload := createMetadataAll (toCallsOnly m1.registry latest) TO_CALLS_VERSION,
           registry := m1.registry,
           converted := [],
           calls := [] }, m1)

/-- Modelled from the spec: `getUniqTypes` (`metadata/util`) is not under
`src/`; per spec §4.3 it walks the identifiers referenced by the latest
representation and deduplicates; an identifier the registry cannot resolve
raises an error carrying it in strict mode and is still included (traversal
continuing) in lenient mode. -/
def collectUniq (reg : Registry) (throwErr : Bool) : List String → Except MVError (List String)
  | [] => .ok []
  | i :: rest =>
    if throwErr ∧ i ∉ reg.known then .error (.unresolvedType i)
    else
      match collectUniq reg throwErr rest with
      | .error e => .error e
      | .ok out => .ok (if i ∈ out then out else i :: out)

/-- The type identifiers referenced by a representation: upgrades are lossless
(spec §1) and the free step embedding carries its predecessor, so references
are those of the underlying native payload. -/
def refsOf : Rep → List String
  | .nativeV _ refs => refs
  | .upgraded _ _ prev => refsOf prev
  | .callsOnly src => refsOf src

/-- `getUniqTypes(throwErr)`: delegates to the walker on `this.asLatest`. -/
def MetadataVersioned.getUniqTypes (m : MetadataVersioned) (throwErr : Bool) :
    Except MVError (List String × MetadataVersioned) :=
  match getLatest m with
  | .error e => .error e
  | .ok (latest, m1) =>
    match collectUniq m1.registry throwErr (refsOf latest) with
    | .error e => .error e
    | .ok out => .ok (out, m1)

/-- The shape of the JSON projection that matters to the claims. -/
structure JsonOutput where
  magicNumber : Nat
  metadataIndex : Nat
  normalizedAliases : Bool
  deriving Repr, DecidableEq

/-- Modelled from the spec: the generic container's own serialization
(`Struct.toJSON`, out of scope per §1) serializes the wrapped union through
the registry, so its output reflects whether the latest-only alias
normalization has been applied to the registry. -/
def superToJSON (m : MetadataVersioned) : JsonOutput :=
  { magicNumber := m.magicNumber
    metadataIndex := m.version
    normalizedAliases := m.registry.normalized }

/-- `toJSON()`: forces `this.asLatest` (the aliasing HACK), then delegates to
`super.toJSON()` on the resulting state. -/
def MetadataVersioned.toJSON (m : MetadataVersioned) :
    Except MVError (JsonOutput × MetadataVersioned) :=
  match getLatest m with
  | .error e => .error e
  | .ok (_, m1) => .ok (superToJSON m1, m1)

/-- A freshly decoded record: empty cache, empty ghost trace (decoding happens
in the generic container's constructor, out of scope per §1). -/
def freshRecord (magic : Nat) (pl : Payload) (reg : Registry) : MetadataVersioned :=
  { magicNumber := magic, payload := pl, registry := reg, converted := [], calls := [] }

/-- The representation obtained by applying the adjacent upgrade steps in
ascending order starting from the native payload of a record with intrinsic
version `s`: `chainRep s native v` is `native` for `v ≤ s` and otherwise the
step to `v` (with context `s`) applied to the chain up to `v - 1` — i.e.
`v - s` steps applied in ascending order. -/
def chainRep (s : Nat) (native : Rep) : Nat → Rep
  | 0 => native
  | v + 1 =>
    if v + 1 ≤ s then native
    else Rep.upgraded (v + 1) s (chainRep s native v)

/-- One public accessor invocation, for lifetime statements.  The state effect
of `asCallsOnly`, `toJSON` and `getUniqTypes` on the source record is exactly
that of forcing `asLatest` (each then only reads). -/
inductive MVOp where
  | ver (v : Nat)
  | latest
  | callsOnly
  | json
  | uniq (throwErr : Bool)
  deriving Repr, DecidableEq

/-- The record state after a fallible accessor (errors are raised before any
state mutation, so the state is unchanged on error). -/
def stateAfter {α : Type} (m : MetadataVersioned)
    (r : Except MVError (α × MetadataVersioned)) : MetadataVersioned :=
  match r with
  | .ok (_, m1) => m1
  | .error _ => m

def applyOp (m : MetadataVersioned) : MVOp → MetadataVersioned
  | .ver v => stateAfter m (asVersion m v)
  | .latest => stateAfter m (asLatest m)
  | .callsOnly => stateAfter m (asLatest m)
  | .json => stateAfter m (asLatest m)
  | .uniq _ => stateAfter m (asLatest m)

def runOps (m : MetadataVersioned) (ops : List MVOp) : MetadataVersioned :=
  ops.foldl applyOp m

/-- Cache invariant: every numeric entry holds exactly the ascending chain
value for its key. -/
def numEntriesOK (m : MetadataVersioned) : Prop :=
  ∀ j r, mlookup m.converted (MKey.num j) = some r →
    r = chainRep m.version m.payload.native j

/-- Cache invariant: a `latest` entry holds the chain value to
`LATEST_VERSION` and the registry has been normalized when it was created. -/
def latestEntryOK (m : MetadataVersioned) : Prop :=
  ∀ r, mlookup m.converted MKey.latest = some r →
    r = chainRep m.version m.payload.native 15 ∧ m.registry.normalized = true

/-- Cache invariant: numeric entries are downward closed above the intrinsic
version (the chain is always filled bottom-up). -/
def numContiguous (m : MetadataVersioned) : Prop :=
  ∀ j, mlookup m.converted (MKey.num j) ≠ none →
    ∀ i, m.version < i → i ≤ j → mlookup m.converted (MKey.num i) ≠ none

/-- Cache invariant: a `latest` entry implies all numeric entries above the
intrinsic version up to `LATEST_VERSION` are present. -/
def latestContiguous (m : MetadataVersioned) : Prop :=
  mlookup m.converted MKey.latest ≠ none →
    ∀ i, m.version < i → i ≤ 15 → mlookup m.converted (MKey.num i) ≠ none

/-- All cache invariants together; they hold for every reachable record state
(a fresh record has an empty cache, and every accessor preserves them). -/
def GoodCache (m : MetadataVersioned) : Prop :=
  numEntriesOK m ∧ latestEntryOK m ∧ numContiguous m ∧ latestContiguous m

/-- Ghost-trace invariant: no cache key was ever computed twice, and every
computed key is cached. -/
def callsGood (m : MetadataVersioned) : Prop :=
  (m.calls.map Prod.fst).Nodup ∧
  ∀ k, k ∈ m.calls.map Prod.fst → mlookup m.converted k ≠ none

end PjsApi

namespace PjsApi

/-! ### Branch characterizations of the engine -/

theorem assertVersion_gt {m : MetadataVersioned} {t : Nat} (h : t < m.version) :
    assertVersion m t = .error (.downgrade m.version t) := by
  simp [assertVersion, h]

theorem assertVersion_eq {m : MetadataVersioned} {t : Nat} (h : m.version = t) :
    assertVersion m t = .ok true := by
  simp [assertVersion, h]

theorem assertVersion_lt {m : MetadataVersioned} {t : Nat} (h1 : m.version ≤ t)
    (h2 : m.version ≠ t) : assertVersion m t = .ok false := by
  have h3 : ¬ (m.version > t) := by omega
  simp [assertVersion, h3, h2]

theorem getNum_err {v : Nat} {m : MetadataVersioned} (h : v < m.version) :
    getNum v m = .error (.downgrade m.version v) := by
  cases v with
  | zero => simp [getNum, assertVersion_gt h]
  | succ w => simp [getNum, assertVersion_gt h]

theorem getNum_curr {v : Nat} {m : MetadataVersioned} (h : m.version = v) :
    getNum v m = .ok (m.payload.native, m) := by
  cases v with
  | zero => simp [getNum, assertVersion_eq h]
  | succ w => simp [getNum, assertVersion_eq h]

theorem getNum_hit {w : Nat} {m : MetadataVersioned} {r0 : Rep} (h : m.version < w + 1)
    (hl : mlookup m.converted (MKey.num (w + 1)) = some r0) :
    getNum (w + 1) m = .ok (r0, m) := by
  have ha : assertVersion m (w + 1) = .ok false := assertVersion_lt (by omega) (by omega)
  simp [getNum, ha, hl]

theorem getNum_miss9 {m : MetadataVersioned} (h : m.version < 10)
    (hl : mlookup m.converted (MKey.num 10) = none) :
    getNum 10 m = .ok (Rep.upgraded 10 m.version m.payload.native,
      { m with converted := (MKey.num 10, Rep.upgraded 10 m.version m.payload.native) :: m.converted,
               calls := m.calls ++ [(MKey.num 10, m.version)] }) := by
  have ha : assertVersion m 10 = .ok false := assertVersion_lt (by omega) (by omega)
  have h9 : assertVersion m 9 = .ok (m.version == 9) := by
    have h3 : ¬ (m.version > 9) := by omega
    simp [assertVersion, h3]
  simp [getNum, ha, hl, asV9, h9, upgradeStep, Except.map]

theorem getNum_missS {w : Nat} {m m1 : MetadataVersioned} {prev : Rep} (h9 : w ≠ 9)
    (h : m.version < w + 1) (hl : mlookup m.converted (MKey.num (w + 1)) = none)
    (hrec : getNum w m = .ok (prev, m1)) :
    getNum (w + 1) m = .ok (Rep.upgraded (w + 1) m1.version prev,
      { m1 with converted := (MKey.num (w + 1), Rep.upgraded (w + 1) m1.version prev) :: m1.converted,
                calls := m1.calls ++ [(MKey.num (w + 1), m1.version)] }) := by
  have ha : assertVersion m (w + 1) = .ok false := assertVersion_lt (by omega) (by omega)
  simp [getNum, ha, hl, h9, hrec, upgradeStep]

theorem getNum_missE {w : Nat} {m : MetadataVersioned} {e : MVError} (h9 : w ≠ 9)
    (h : m.version < w + 1) (hl : mlookup m.converted (MKey.num (w + 1)) = none)
    (hrec : getNum w m = .error e) :
    getNum (w + 1) m = .error e := by
  have ha : assertVersion m (w + 1) = .ok false := assertVersion_lt (by omega) (by omega)
  simp [getNum, ha, hl, h9, hrec]

theorem chainRep_le {s v : Nat} (h : v ≤ s) (native : Rep) :
    chainRep s native v = native := by
  cases v with
  | zero => rfl
  | succ w => simp [chainRep, h]

theorem chainRep_gt {s v : Nat} (h : s < v + 1) (native : Rep) :
    chainRep s native (v + 1) = Rep.upgraded (v + 1) s (chainRep s native v) := by
  have h2 : ¬ (v + 1 ≤ s) := by omega
  simp [chainRep, h2]

/-- Exhaustive case analysis of a successful numeric-version access: native
return at the intrinsic version, cache hit, or cache miss via the predecessor
accessor (`asV9` at the chain bottom) with insertion of the step result. -/
theorem getNum_ok_cases {v : Nat} {m m1 : MetadataVersioned} {r : Rep}
    (h : getNum v m = .ok (r, m1)) :
    (m.version = v ∧ r = m.payload.native ∧ m1 = m) ∨
    (m.version < v ∧ mlookup m.converted (MKey.num v) = some r ∧ m1 = m) ∨
    (∃ w prev mi, v = w + 1 ∧ m.version < v ∧
      mlookup m.converted (MKey.num v) = none ∧
      ((w = 9 ∧ prev = m.payload.native ∧ mi = m) ∨ (w ≠ 9 ∧ getNum w m = .ok (prev, mi))) ∧
      r = Rep.upgraded v mi.version prev ∧
      m1 = { mi with converted := (MKey.num v, r) :: mi.converted,
                     calls := mi.calls ++ [(MKey.num v, mi.version)] }) := by
  rcases Nat.lt_trichotomy m.version v with hlt | heq | hgt
  · cases v with
    | zero => omega
    | succ w =>
      cases hL : mlookup m.converted (MKey.num (w + 1)) with
      | some r0 =>
        rw [getNum_hit hlt hL] at h
        simp only [Except.ok.injEq, Prod.mk.injEq] at h
        obtain ⟨hr, hm⟩ := h
        exact Or.inr (Or.inl ⟨hlt, by rw [hr], hm.symm⟩)
      | none =>
        by_cases h9 : w = 9
        · subst h9
          rw [getNum_miss9 (by omega) hL] at h
          simp only [Except.ok.injEq, Prod.mk.injEq] at h
          obtain ⟨hr, hm⟩ := h
          subst hr
          subst hm
          exact Or.inr (Or.inr ⟨9, m.payload.native, m, rfl, hlt, rfl,
            Or.inl ⟨rfl, rfl, rfl⟩, rfl, rfl⟩)
        · cases hR : getNum w m with
          | error e =>
            rw [getNum_missE h9 hlt hL hR] at h
            exact absurd h (by simp)
          | ok pm =>
            obtain ⟨prev, mi⟩ := pm
            rw [getNum_missS h9 hlt hL hR] at h
            simp only [Except.ok.injEq, Prod.mk.injEq] at h
            obtain ⟨hr, hm⟩ := h
            subst hr
            subst hm
            exact Or.inr (Or.inr ⟨w, prev, mi, rfl, hlt, rfl, Or.inr ⟨h9, hR⟩, rfl, rfl⟩)
  · rw [getNum_curr heq] at h
    simp only [Except.ok.injEq, Prod.mk.injEq] at h
    obtain ⟨hr, hm⟩ := h
    exact Or.inl ⟨heq, hr.symm, hm.symm⟩
  · rw [getNum_err hgt] at h
    exact absurd h (by simp)

end PjsApi

namespace PjsApi

theorem mlookup_cons (k0 : MKey) (r0 : Rep) (l : List (MKey × Rep)) (k : MKey) :
    mlookup ((k0, r0) :: l) k = if k0 = k then some r0 else mlookup l k := rfl

theorem mlookup_nil (k : MKey) : mlookup [] k = none := rfl

theorem version_mk (m : MetadataVersioned) (c : List (MKey × Rep)) (cl : List (MKey × Nat)) :
    ({ m with converted := c, calls := cl } : MetadataVersioned).version = m.version := rfl

/-- Frame facts of a successful numeric access: the wrapped payload, magic
number and registry are untouched; the ghost trace only grows, by entries
whose context argument is the record's intrinsic version and whose keys are
numeric and at most the request; the cache only grows, by numeric keys above
the intrinsic version and at most the request. -/
theorem getNum_frame : ∀ (v : Nat) {m m1 : MetadataVersioned} {r : Rep},
    getNum v m = .ok (r, m1) →
    m1.payload = m.payload ∧ m1.magicNumber = m.magicNumber ∧ m1.registry = m.registry ∧
    (∃ t, m1.calls = m.calls ++ t ∧ ∀ e ∈ t, e.2 = m.version ∧ ∃ j, e.1 = MKey.num j ∧ j ≤ v) ∧
    (∀ k r2, mlookup m.converted k = some r2 → mlookup m1.converted k = some r2) ∧
    (∀ k, mlookup m1.converted k ≠ none → mlookup m.converted k ≠ none ∨
      ∃ j, k = MKey.num j ∧ m.version < j ∧ j ≤ v) := by
  intro v
  induction v with
  | zero =>
    intro m m1 r h
    rcases getNum_ok_cases h with ⟨_, _, hm⟩ | ⟨_, _, hm⟩ | ⟨w, prev, mi, hv, _⟩
    · subst hm
      exact ⟨rfl, rfl, rfl, ⟨[], by simp, by simp⟩, fun k r2 hk => hk, fun k hk => Or.inl hk⟩
    · subst hm
      exact ⟨rfl, rfl, rfl, ⟨[], by simp, by simp⟩, fun k r2 hk => hk, fun k hk => Or.inl hk⟩
    · omega
  | succ w ih =>
    intro m m1 r h
    rcases getNum_ok_cases h with ⟨_, _, hm⟩ | ⟨_, _, hm⟩ |
      ⟨w2, prev, mi, hv, hlt, hL, hinner, hr, hm1⟩
    · subst hm
      exact ⟨rfl, rfl, rfl, ⟨[], by simp, by simp⟩, fun k r2 hk => hk, fun k hk => Or.inl hk⟩
    · subst hm
      exact ⟨rfl, rfl, rfl, ⟨[], by simp, by simp⟩, fun k r2 hk => hk, fun k hk => Or.inl hk⟩
    · have hw : w = w2 := by omega
      subst hw
      rcases hinner with ⟨h9, hprev, hmi⟩ | ⟨h9, hR⟩
      · have hmi2 := hmi.symm
        subst hmi2
        subst hm1
        refine ⟨rfl, rfl, rfl, ⟨[(MKey.num (w + 1), m.version)], rfl, ?_⟩, ?_, ?_⟩
        · intro e he
          simp only [List.mem_singleton] at he
          subst he
          exact ⟨rfl, w + 1, rfl, le_refl _⟩
        · intro k r2 hk
          have hne : MKey.num (w + 1) ≠ k := by
            intro hkk
            rw [← hkk] at hk
            rw [hL] at hk
            exact Option.noConfusion hk
          rw [mlookup_cons, if_neg hne]
          exact hk
        · intro k hk
          rw [mlookup_cons] at hk
          by_cases hkk : MKey.num (w + 1) = k
          · exact Or.inr ⟨w + 1, hkk.symm, hlt, le_refl _⟩
          · rw [if_neg hkk] at hk
            exact Or.inl hk
      · obtain ⟨hpl, hmg, hrg, ⟨t, hct, htm⟩, hmono, hext⟩ := ih hR
        have hver : mi.version = m.version := by
          simp [MetadataVersioned.version, hpl]
        subst hm1
        refine ⟨hpl, hmg, hrg,
          ⟨t ++ [(MKey.num (w + 1), mi.version)], by simp [hct], ?_⟩, ?_, ?_⟩
        · intro e he
          rw [List.mem_append] at he
          rcases he with he | he
          · obtain ⟨h1, j, h2, h3⟩ := htm e he
            exact ⟨h1, j, h2, by omega⟩
          · simp only [List.mem_singleton] at he
            subst he
            exact ⟨hver, w + 1, rfl, le_refl _⟩
        · intro k r2 hk
          have hk2 := hmono k r2 hk
          have hne : MKey.num (w + 1) ≠ k := by
            intro hkk
            rw [← hkk] at hk
            rw [hL] at hk
            exact Option.noConfusion hk
          rw [mlookup_cons, if_neg hne]
          exact hk2
        · intro k hk
          rw [mlookup_cons] at hk
          by_cases hkk : MKey.num (w + 1) = k
          · exact Or.inr ⟨w + 1, hkk.symm, hlt, le_refl _⟩
          · rw [if_neg hkk] at hk
            rcases hext k hk with h1 | ⟨j, h1, h2, h3⟩
            · exact Or.inl h1
            · exact Or.inr ⟨j, h1, h2, by omega⟩

end PjsApi

namespace PjsApi

theorem mlookup_cons_pres {l : List (MKey × Rep)} {k k0 : MKey} {r0 : Rep}
    (h : mlookup l k ≠ none) : mlookup ((k0, r0) :: l) k ≠ none := by
  rw [mlookup_cons]
  by_cases hkk : k0 = k
  · simp [hkk]
  · rw [if_neg hkk]
    exact h

/-- A second identical numeric access is a pure cache read: it returns the
same value and leaves the state unchanged. -/
theorem getNum_idem {v : Nat} {m m1 : MetadataVersioned} {r : Rep}
    (h : getNum v m = .ok (r, m1)) : getNum v m1 = .ok (r, m1) := by
  rcases getNum_ok_cases h with ⟨heq, hr, hm⟩ | ⟨hlt, hL, hm⟩ |
    ⟨w, prev, mi, hv, hlt, hL, hinner, hr, hm1⟩
  · subst hm
    rw [getNum_curr heq, hr]
  · subst hm
    cases v with
    | zero => omega
    | succ w => exact getNum_hit hlt hL
  · subst hv
    have hver : mi.version = m.version := by
      rcases hinner with ⟨_, _, hmi⟩ | ⟨_, hR⟩
      · rw [hmi]
      · obtain ⟨hpl, _⟩ := getNum_frame w hR
        simp [MetadataVersioned.version, hpl]
    subst hm1
    have h1 : mi.version < w + 1 := by omega
    exact getNum_hit h1 (by rw [mlookup_cons, if_pos rfl])

/-- The ghost-trace invariant (each cache key computed at most once, every
computed key cached) is preserved by numeric accesses. -/
theorem callsGood_getNum : ∀ (v : Nat) {m m1 : MetadataVersioned} {r : Rep},
    callsGood m → getNum v m = .ok (r, m1) → callsGood m1 := by
  intro v
  induction v with
  | zero =>
    intro m m1 r hg h
    rcases getNum_ok_cases h with ⟨_, _, hm⟩ | ⟨_, _, hm⟩ | ⟨w, _, _, hv, _⟩
    · subst hm; exact hg
    · subst hm; exact hg
    · omega
  | succ w ih =>
    intro m m1 r hg h
    rcases getNum_ok_cases h with ⟨_, _, hm⟩ | ⟨_, _, hm⟩ |
      ⟨w2, prev, mi, hv, hlt, hL, hinner, hr, hm1⟩
    · subst hm; exact hg
    · subst hm; exact hg
    · have hw : w = w2 := by omega
      subst hw
      have hgi : callsGood mi ∧ mlookup mi.converted (MKey.num (w + 1)) = none := by
        rcases hinner with ⟨_, _, hmi⟩ | ⟨_, hR⟩
        · rw [hmi]
          exact ⟨hg, hL⟩
        · obtain ⟨_, _, _, _, _, hext⟩ := getNum_frame w hR
          refine ⟨ih hg hR, ?_⟩
          by_cases hnone : mlookup mi.converted (MKey.num (w + 1)) = none
          · exact hnone
          · rcases hext _ hnone with h1 | ⟨j, hj, _, hjw⟩
            · exact absurd hL h1
            · have : j = w + 1 := by
                cases hj
                rfl
              omega
      obtain ⟨⟨hnd, hcached⟩, hmiss⟩ := hgi
      subst hm1
      constructor
      · have hnotin : MKey.num (w + 1) ∉ mi.calls.map Prod.fst := by
          intro hin
          exact (hcached _ hin) hmiss
        simp only [List.map_append, List.map_cons, List.map_nil]
        rw [List.nodup_append]
        refine ⟨hnd, List.nodup_singleton _, ?_⟩
        intro a ha hb
        simp only [List.mem_singleton] at hb
        subst hb
        exact hnotin ha
      · intro k hk
        simp only [List.map_append, List.map_cons, List.map_nil, List.mem_append,
          List.mem_singleton] at hk
        rcases hk with hk | hk
        · exact mlookup_cons_pres (hcached k hk)
        · subst hk
          rw [mlookup_cons, if_pos rfl]
          simp

end PjsApi

namespace PjsApi

theorem num_ne_latest (j : Nat) : MKey.num j ≠ MKey.latest := by
  intro h
  exact MKey.noConfusion h

/-- Under the cache invariants, a numeric request `v` with `s ≤ v` (`s` the
intrinsic version, a known version) succeeds with exactly the ascending-chain
value, preserves the invariants, fills every numeric cache slot in `(s, v]`,
leaves the `latest` slot untouched, and performs no state change at all when
`v = s`. -/
theorem getNum_run : ∀ (v : Nat) (m : MetadataVersioned), 9 ≤ m.version → m.version ≤ v →
    GoodCache m →
    ∃ m1, getNum v m = .ok (chainRep m.version m.payload.native v, m1) ∧ GoodCache m1 ∧
      (m.version = v → m1 = m) ∧
      (∀ j, m.version < j → j ≤ v → mlookup m1.converted (MKey.num j) ≠ none) ∧
      mlookup m1.converted MKey.latest = mlookup m.converted MKey.latest := by
  intro v
  induction v with
  | zero =>
    intro m h9 hv _
    omega
  | succ w ih =>
    intro m h9 hv hg
    obtain ⟨hnum, hlat, hcontig, hlcontig⟩ := hg
    by_cases heq : m.version = w + 1
    · refine ⟨m, ?_, ⟨hnum, hlat, hcontig, hlcontig⟩, fun _ => rfl, ?_, rfl⟩
      · rw [getNum_curr heq, chainRep_le (by omega)]
      · intro j hj1 hj2
        omega
    · have hlt : m.version < w + 1 := by omega
      cases hL : mlookup m.converted (MKey.num (w + 1)) with
      | some r0 =>
        have hr0 : r0 = chainRep m.version m.payload.native (w + 1) := hnum _ _ hL
        refine ⟨m, ?_, ⟨hnum, hlat, hcontig, hlcontig⟩, fun hc => absurd hc heq, ?_, rfl⟩
        · rw [getNum_hit hlt hL, hr0]
        · intro j hj1 hj2
          exact hcontig (w + 1) (by simp [hL]) j hj1 hj2
      | none =>
        by_cases h9w : w = 9
        · subst h9w
          have hv9 : m.version = 9 := by omega
          have hval : chainRep m.version m.payload.native 10 =
              Rep.upgraded 10 m.version m.payload.native := by
            rw [chainRep_gt (by omega), chainRep_le (by omega)]
          refine ⟨{ m with
              converted := (MKey.num 10, Rep.upgraded 10 m.version m.payload.native) :: m.converted,
              calls := m.calls ++ [(MKey.num 10, m.version)] }, ?_, ?_, fun hc => absurd hc heq,
              ?_, ?_⟩
          · rw [getNum_miss9 (by omega) hL, hval]
          · refine ⟨?_, ?_, ?_, ?_⟩
            · intro j r hk
              rw [mlookup_cons] at hk
              by_cases hkk : MKey.num 10 = MKey.num j
              · have hj : j = 10 := by
                  cases hkk
                  rfl
                subst hj
                rw [if_pos hkk] at hk
                have hr := Option.some.inj hk
                rw [← hr, ← hval]
                rfl
              · rw [if_neg hkk] at hk
                exact hnum j r hk
            · intro r hk
              rw [mlookup_cons, if_neg (num_ne_latest 10)] at hk
              exact hlat r hk
            · intro j hj i hi1 hi2
              rw [mlookup_cons] at hj
              rw [version_mk] at hi1
              by_cases hkk : MKey.num 10 = MKey.num j
              · have hj10 : j = 10 := by
                  cases hkk
                  rfl
                subst hj10
                have hi10 : i = 10 := by omega
                subst hi10
                rw [mlookup_cons, if_pos rfl]
                simp
              · rw [if_neg hkk] at hj
                exact mlookup_cons_pres (hcontig j hj i hi1 hi2)
            · intro hl i hi1 hi2
              rw [mlookup_cons, if_neg (num_ne_latest 10)] at hl
              rw [version_mk] at hi1
              exact mlookup_cons_pres (hlcontig hl i hi1 hi2)
          · intro j hj1 hj2
            have hj : j = 10 := by omega
            subst hj
            rw [mlookup_cons, if_pos rfl]
            simp
          · rw [mlookup_cons, if_neg (num_ne_latest 10)]
        · obtain ⟨mi, hrec, ⟨hnum_i, hlat_i, hcontig_i, hlcontig_i⟩, _, hpres_i, hl_i⟩ :=
            ih m h9 (by omega) ⟨hnum, hlat, hcontig, hlcontig⟩
          obtain ⟨hpl, hmg, hrg, _, hmono, hext⟩ := getNum_frame w hrec
          have hver : mi.version = m.version := by
            simp [MetadataVersioned.version, hpl]
          have hnat : mi.payload.native = m.payload.native := by rw [hpl]
          have hval : chainRep m.version m.payload.native (w + 1) =
              Rep.upgraded (w + 1) m.version (chainRep m.version m.payload.native w) :=
            chainRep_gt hlt _
          refine ⟨{ mi with
              converted := (MKey.num (w + 1),
                Rep.upgraded (w + 1) m.version (chainRep m.version m.payload.native w)) ::
                  mi.converted,
              calls := mi.calls ++ [(MKey.num (w + 1), m.version)] }, ?_, ?_,
              fun hc => absurd hc heq, ?_, ?_⟩
          · rw [getNum_missS h9w hlt hL hrec, hver, hval]
          · refine ⟨?_, ?_, ?_, ?_⟩
            · intro j r hk
              rw [mlookup_cons] at hk
              by_cases hkk : MKey.num (w + 1) = MKey.num j
              · have hj : j = w + 1 := by
                  cases hkk
                  rfl
                subst hj
                rw [if_pos hkk] at hk
                have hr := Option.some.inj hk
                rw [← hr]
                show Rep.upgraded (w + 1) m.version (chainRep m.version m.payload.native w) =
                  chainRep mi.version mi.payload.native (w + 1)
                rw [hver, hnat, ← hval]
              · rw [if_neg hkk] at hk
                exact hnum_i j r hk
            · intro r hk
              rw [mlookup_cons, if_neg (num_ne_latest (w + 1))] at hk
              have hk2 : mlookup m.converted MKey.latest = some r := by
                rw [← hl_i]
                exact hk
              obtain ⟨hv1, hv2⟩ := hlat r hk2
              constructor
              · show r = chainRep mi.version mi.payload.native 15
                rw [hver, hnat]
                exact hv1
              · show mi.registry.normalized = true
                rw [hrg]
                exact hv2
            · intro j hj i hi1 hi2
              rw [mlookup_cons] at hj
              rw [version_mk] at hi1
              by_cases hkk : MKey.num (w + 1) = MKey.num j
              · have hj1 : j = w + 1 := by
                  cases hkk
                  rfl
                subst hj1
                by_cases hiw : i = w + 1
                · subst hiw
                  rw [mlookup_cons, if_pos rfl]
                  simp
                · refine mlookup_cons_pres (hpres_i i ?_ ?_)
                  · omega
                  · omega
              · rw [if_neg hkk] at hj
                refine mlookup_cons_pres (hcontig_i j hj i ?_ hi2)
                omega
            · intro hl i hi1 hi2
              rw [mlookup_cons, if_neg (num_ne_latest (w + 1))] at hl
              rw [version_mk] at hi1
              refine mlookup_cons_pres (hlcontig_i hl i ?_ hi2)
              omega
          · intro j hj1 hj2
            by_cases hjw : j = w + 1
            · subst hjw
              rw [mlookup_cons, if_pos rfl]
              simp
            · refine mlookup_cons_pres (hpres_i j hj1 ?_)
              omega
          · rw [mlookup_cons, if_neg (num_ne_latest (w + 1))]
            exact hl_i

end PjsApi

namespace PjsApi

theorem latest_ne_num (j : Nat) : MKey.latest ≠ MKey.num j := by
  intro h
  exact MKey.noConfusion h

theorem version_mk2 (m : MetadataVersioned) (rg : Registry) (c : List (MKey × Rep))
    (cl : List (MKey × Nat)) :
    ({ m with registry := rg, converted := c, calls := cl } : MetadataVersioned).version =
      m.version := rfl

theorem getLatest_hit {m : MetadataVersioned} {r : Rep}
    (hl : mlookup m.converted MKey.latest = some r) : getLatest m = .ok (r, m) := by
  simp [getLatest, hl]

theorem getLatest_miss {m m1 : MetadataVersioned} {prev : Rep}
    (hl : mlookup m.converted MKey.latest = none) (hrec : asV15 m = .ok (prev, m1)) :
    getLatest m = .ok (prev, { m1 with
      registry := { m1.registry with normalized := true },
      converted := (MKey.latest, prev) :: m1.converted,
      calls := m1.calls ++ [(MKey.latest, m1.version)] }) := by
  simp [getLatest, hl, hrec, toLatest]

theorem getLatest_missE {m : MetadataVersioned} {e : MVError}
    (hl : mlookup m.converted MKey.latest = none) (hrec : asV15 m = .error e) :
    getLatest m = .error e := by
  simp [getLatest, hl, hrec]

/-- Exhaustive case analysis of a successful `latest` access: cache hit, or a
miss resolved through `asV15` followed by `toLatest` and insertion under the
`latest` sentinel. -/
theorem getLatest_ok_cases {m m1 : MetadataVersioned} {r : Rep}
    (h : getLatest m = .ok (r, m1)) :
    (mlookup m.converted MKey.latest = some r ∧ m1 = m) ∨
    (∃ mi, mlookup m.converted MKey.latest = none ∧ getNum 15 m = .ok (r, mi) ∧
      m1 = { mi with registry := { mi.registry with normalized := true },
                     converted := (MKey.latest, r) :: mi.converted,
                     calls := mi.calls ++ [(MKey.latest, mi.version)] }) := by
  cases hl : mlookup m.converted MKey.latest with
  | some r0 =>
    rw [getLatest_hit hl] at h
    simp only [Except.ok.injEq, Prod.mk.injEq] at h
    obtain ⟨hr, hm⟩ := h
    exact Or.inl ⟨by rw [hr], hm.symm⟩
  | none =>
    cases hrec : asV15 m with
    | error e =>
      rw [getLatest_missE hl hrec] at h
      exact absurd h (by simp)
    | ok pm =>
      obtain ⟨prev, mi⟩ := pm
      rw [getLatest_miss hl hrec] at h
      simp only [Except.ok.injEq, Prod.mk.injEq] at h
      obtain ⟨hr, hm⟩ := h
      subst hr
      subst hm
      exact Or.inr ⟨mi, rfl, hrec, rfl⟩

/-- Frame facts of a successful `latest` access, including idempotence and
preservation of the ghost-trace invariant. -/
theorem getLatest_frame {m m1 : MetadataVersioned} {r : Rep}
    (h : getLatest m = .ok (r, m1)) :
    m1.payload = m.payload ∧ m1.magicNumber = m.magicNumber ∧
    m1.registry.known = m.registry.known ∧
    (∃ t, m1.calls = m.calls ++ t ∧ ∀ e ∈ t, e.2 = m.version) ∧
    (∀ k r2, mlookup m.converted k = some r2 → mlookup m1.converted k = some r2) ∧
    getLatest m1 = .ok (r, m1) ∧
    (callsGood m → callsGood m1) := by
  rcases getLatest_ok_cases h with ⟨hl, hm⟩ | ⟨mi, hl, hrec, hm1⟩
  · subst hm
    exact ⟨rfl, rfl, rfl, ⟨[], by simp, by simp⟩, fun k r2 hk => hk, getLatest_hit hl,
      fun hg => hg⟩
  · obtain ⟨hpl, hmg, hrg, ⟨t, hct, htm⟩, hmono, hext⟩ := getNum_frame 15 hrec
    have hver : mi.version = m.version := by
      simp [MetadataVersioned.version, hpl]
    have hlnone : mlookup mi.converted MKey.latest = none := by
      by_cases hno : mlookup mi.converted MKey.latest = none
      · exact hno
      · rcases hext _ hno with h1 | ⟨j, hj, _⟩
        · exact absurd hl h1
        · exact absurd hj (latest_ne_num j)
    subst hm1
    refine ⟨hpl, hmg, ?_, ⟨t ++ [(MKey.latest, mi.version)], by simp [hct], ?_⟩, ?_, ?_, ?_⟩
    · show mi.registry.known = m.registry.known
      rw [hrg]
    · intro e he
      rw [List.mem_append] at he
      rcases he with he | he
      · exact (htm e he).1
      · simp only [List.mem_singleton] at he
        subst he
        exact hver
    · intro k r2 hk
      have hne : MKey.latest ≠ k := by
        intro hkk
        rw [← hkk] at hk
        rw [hl] at hk
        exact Option.noConfusion hk
      rw [mlookup_cons, if_neg hne]
      exact hmono k r2 hk
    · exact getLatest_hit (by rw [mlookup_cons, if_pos rfl])
    · intro hg
      obtain ⟨hnd, hcached⟩ := callsGood_getNum 15 hg hrec
      constructor
      · have hnotin : MKey.latest ∉ mi.calls.map Prod.fst := by
          intro hin
          exact (hcached _ hin) hlnone
        simp only [List.map_append, List.map_cons, List.map_nil]
        rw [List.nodup_append]
        refine ⟨hnd, List.nodup_singleton _, ?_⟩
        intro a ha hb
        simp only [List.mem_singleton] at hb
        subst hb
        exact hnotin ha
      · intro k hk
        simp only [List.map_append, List.map_cons, List.map_nil, List.mem_append,
          List.mem_singleton] at hk
        rcases hk with hk | hk
        · exact mlookup_cons_pres (hcached k hk)
        · subst hk
          rw [mlookup_cons, if_pos rfl]
          simp

/-- Under the cache invariants, `asLatest` succeeds with the ascending-chain
value to `LATEST_VERSION`, preserves the invariants, caches the `latest`
sentinel and every numeric slot above the intrinsic version, and leaves the
registry normalized. -/
theorem getLatest_run (m : MetadataVersioned) (h9 : 9 ≤ m.version) (hv : m.version ≤ 15)
    (hg : GoodCache m) :
    ∃ m1, getLatest m = .ok (chainRep m.version m.payload.native 15, m1) ∧ GoodCache m1 ∧
      mlookup m1.converted MKey.latest ≠ none ∧
      (∀ j, m.version < j → j ≤ 15 → mlookup m1.converted (MKey.num j) ≠ none) ∧
      m1.registry.normalized = true ∧ m1.registry.known = m.registry.known ∧
      m1.payload = m.payload ∧ m1.magicNumber = m.magicNumber := by
  cases hl : mlookup m.converted MKey.latest with
  | some r0 =>
    obtain ⟨hnum, hlat, hcontig, hlcontig⟩ := hg
    obtain ⟨hv1, hv2⟩ := hlat r0 hl
    refine ⟨m, ?_, ⟨hnum, hlat, hcontig, hlcontig⟩, by simp [hl], ?_, hv2, rfl, rfl, rfl⟩
    · rw [getLatest_hit hl, hv1]
    · intro j hj1 hj2
      exact hlcontig (by simp [hl]) j hj1 hj2
  | none =>
    obtain ⟨mi, hrec, ⟨hnum_i, hlat_i, hcontig_i, hlcontig_i⟩, _, hpres, hl_i⟩ :=
      getNum_run 15 m h9 hv hg
    obtain ⟨hpl, hmg, hrg, _, hmono, hext⟩ := getNum_frame 15 hrec
    have hver : mi.version = m.version := by
      simp [MetadataVersioned.version, hpl]
    have hnat : mi.payload.native = m.payload.native := by rw [hpl]
    refine ⟨{ mi with
        registry := { mi.registry with normalized := true },
        converted := (MKey.latest, chainRep m.version m.payload.native 15) :: mi.converted,
        calls := mi.calls ++ [(MKey.latest, m.version)] }, ?_, ?_, ?_, ?_, rfl, ?_, hpl, hmg⟩
    · rw [getLatest_miss hl hrec, hver]
    · refine ⟨?_, ?_, ?_, ?_⟩
      · intro j r hk
        rw [mlookup_cons, if_neg (latest_ne_num j)] at hk
        exact hnum_i j r hk
      · intro r hk
        rw [mlookup_cons, if_pos rfl] at hk
        have hr := Option.some.inj hk
        constructor
        · show r = chainRep mi.version mi.payload.native 15
          rw [hver, hnat, ← hr]
        · rfl
      · intro j hj i hi1 hi2
        rw [mlookup_cons, if_neg (latest_ne_num j)] at hj
        rw [version_mk2] at hi1
        refine mlookup_cons_pres (hcontig_i j hj i ?_ hi2)
        omega
      · intro hli i hi1 hi2
        rw [version_mk2] at hi1
        refine mlookup_cons_pres (hpres i ?_ hi2)
        omega
    · rw [mlookup_cons, if_pos rfl]
      simp
    · intro j hj1 hj2
      refine mlookup_cons_pres (hpres j hj1 hj2)
    · show mi.registry.known = m.registry.known
      rw [hrg]

theorem getNum_total : ∀ (v : Nat) (m : MetadataVersioned), m.version ≤ v →
    ∃ r m1, getNum v m = .ok (r, m1) := by
  intro v
  induction v with
  | zero =>
    intro m hv
    exact ⟨m.payload.native, m, getNum_curr (by omega)⟩
  | succ w ih =>
    intro m hv
    by_cases heq : m.version = w + 1
    · exact ⟨m.payload.native, m, getNum_curr heq⟩
    · have hlt : m.version < w + 1 := by omega
      cases hL : mlookup m.converted (MKey.num (w + 1)) with
      | some r0 => exact ⟨r0, m, getNum_hit hlt hL⟩
      | none =>
        by_cases h9 : w = 9
        · subst h9
          exact ⟨_, _, getNum_miss9 (by omega) hL⟩
        · obtain ⟨prev, mi, hrec⟩ := ih m (by omega)
          exact ⟨_, _, getNum_missS h9 hlt hL hrec⟩

theorem getLatest_total (m : MetadataVersioned) (hv : m.version ≤ 15) :
    ∃ r m1, getLatest m = .ok (r, m1) := by
  cases hl : mlookup m.converted MKey.latest with
  | some r0 => exact ⟨r0, m, getLatest_hit hl⟩
  | none =>
    obtain ⟨prev, mi, hrec⟩ := getNum_total 15 m hv
    exact ⟨_, _, getLatest_miss hl hrec⟩

end PjsApi

namespace PjsApi

theorem goodCache_of_empty {m : MetadataVersioned} (h : m.converted = []) : GoodCache m := by
  refine ⟨?_, ?_, ?_, ?_⟩
  · intro j r hk
    rw [h] at hk
    exact Option.noConfusion hk
  · intro r hk
    rw [h] at hk
    exact Option.noConfusion hk
  · intro j hj
    rw [h] at hj
    exact absurd rfl hj
  · intro hl
    rw [h] at hl
    exact absurd rfl hl

theorem callsGood_of_empty {m : MetadataVersioned} (h : m.calls = []) : callsGood m := by
  constructor
  · rw [h]
    exact List.nodup_nil
  · intro k hk
    rw [h] at hk
    cases hk

theorem asV9_ok_val {m : MetadataVersioned} {r0 : Rep} (h : asV9 m = .ok r0) :
    r0 = m.payload.native := by
  unfold asV9 at h
  cases ha : assertVersion m 9 with
  | error e =>
    rw [ha] at h
    exact absurd h (by simp)
  | ok b =>
    rw [ha] at h
    simp only [Except.ok.injEq] at h
    exact h.symm

/-- The class surface accessor either short-circuits through `asV9` (no state
change) or is a `#getVersion` numeric access. -/
theorem asVersion_ok_cases {m m1 : MetadataVersioned} {v : Nat} {r : Rep}
    (h : asVersion m v = .ok (r, m1)) :
    (m1 = m ∧ v = 9 ∧ r = m.payload.native) ∨ (v ≠ 9 ∧ getNum v m = .ok (r, m1)) := by
  by_cases h9 : v = 9
  · subst h9
    unfold asVersion at h
    rw [if_pos rfl] at h
    cases ha : asV9 m with
    | error e =>
      rw [ha] at h
      exact absurd h (by simp [Except.map])
    | ok r0 =>
      rw [ha] at h
      simp only [Except.map, Except.ok.injEq, Prod.mk.injEq] at h
      obtain ⟨hr, hm⟩ := h
      refine Or.inl ⟨hm.symm, rfl, ?_⟩
      rw [← hr]
      exact asV9_ok_val ha
  · unfold asVersion at h
    rw [if_neg h9] at h
    exact Or.inr ⟨h9, h⟩

/-- Lenient extraction always succeeds and keeps every identifier, resolved
or not. -/
theorem collectUniq_false (reg : Registry) : ∀ l : List String,
    ∃ out, collectUniq reg false l = .ok out ∧ ∀ i ∈ l, i ∈ out := by
  intro l
  induction l with
  | nil => exact ⟨[], rfl, by simp⟩
  | cons a rest ih =>
    obtain ⟨out, hout, hmem⟩ := ih
    refine ⟨if a ∈ out then out else a :: out, ?_, ?_⟩
    · simp [collectUniq, hout]
    · intro i hi
      rcases List.mem_cons.mp hi with hi | hi
      · subst hi
        by_cases ha : i ∈ out
        · rw [if_pos ha]
          exact ha
        · rw [if_neg ha]
          exact List.mem_cons_self _ _
      · by_cases ha : a ∈ out
        · rw [if_pos ha]
          exact hmem i hi
        · rw [if_neg ha]
          exact List.mem_cons_of_mem _ (hmem i hi)

/-- Strict extraction fails on the first unresolved identifier, carrying it. -/
theorem collectUniq_true (reg : Registry) : ∀ l : List String,
    (∃ i ∈ l, i ∉ reg.known) →
    ∃ j, collectUniq reg true l = .error (.unresolvedType j) ∧ j ∈ l ∧ j ∉ reg.known := by
  intro l
  induction l with
  | nil =>
    rintro ⟨i, hi, _⟩
    cases hi
  | cons a rest ih =>
    rintro ⟨i, hi, hik⟩
    by_cases hak : a ∈ reg.known
    · have hrest : ∃ i ∈ rest, i ∉ reg.known := by
        rcases List.mem_cons.mp hi with h | h
        · rw [← h] at hak
          exact absurd hak hik
        · exact ⟨i, h, hik⟩
      obtain ⟨j, hj, hjm, hjk⟩ := ih hrest
      refine ⟨j, ?_, List.mem_cons_of_mem _ hjm, hjk⟩
      simp [collectUniq, hak, hj]
    · refine ⟨a, ?_, List.mem_cons_self _ _, hak⟩
      simp [collectUniq, hak]

/-- `applyOp` preserves any predicate preserved by every accessor success
state; the scaffolding for lifetime statements. -/
theorem runOps_inv {P : MetadataVersioned → Prop}
    (hP : ∀ m op, P m → P (applyOp m op)) :
    ∀ (ops : List MVOp) (m : MetadataVersioned), P m → P (runOps m ops) := by
  intro ops
  induction ops with
  | nil =>
    intro m h
    exact h
  | cons op rest ih =>
    intro m h
    show P (List.foldl applyOp (applyOp m op) rest)
    exact ih _ (hP m op h)

theorem applyOp_callsGood (m : MetadataVersioned) (op : MVOp) (hg : callsGood m) :
    callsGood (applyOp m op) := by
  have hlat : callsGood (stateAfter m (asLatest m)) := by
    cases h : asLatest m with
    | error e => exact hg
    | ok p =>
      obtain ⟨r, m1⟩ := p
      obtain ⟨_, _, _, _, _, _, hcg⟩ := getLatest_frame h
      exact hcg hg
  cases op with
  | ver v =>
    show callsGood (stateAfter m (asVersion m v))
    cases h : asVersion m v with
    | error e => exact hg
    | ok p =>
      obtain ⟨r, m1⟩ := p
      show callsGood m1
      rcases asVersion_ok_cases h with ⟨hm, _, _⟩ | ⟨_, hn⟩
      · rw [hm]
        exact hg
      · exact callsGood_getNum v hg hn
  | latest => exact hlat
  | callsOnly => exact hlat
  | json => exact hlat
  | uniq b => exact hlat

/-- Every ghost-trace entry carries the intrinsic version as context, and the
payload and magic number are per-operation invariants. -/
def opInvariant (pl : Payload) (magic : Nat) (m : MetadataVersioned) : Prop :=
  m.payload = pl ∧ m.magicNumber = magic ∧ ∀ e ∈ m.calls, e.2 = pl.index

theorem applyOp_opInvariant (pl : Payload) (magic : Nat) (m : MetadataVersioned) (op : MVOp)
    (hi : opInvariant pl magic m) : opInvariant pl magic (applyOp m op) := by
  obtain ⟨hpl, hmg, hcall⟩ := hi
  have hver : m.version = pl.index := by
    rw [MetadataVersioned.version, hpl]
  have hlat : opInvariant pl magic (stateAfter m (asLatest m)) := by
    cases h : asLatest m with
    | error e => exact ⟨hpl, hmg, hcall⟩
    | ok p =>
      obtain ⟨r, m1⟩ := p
      show opInvariant pl magic m1
      obtain ⟨hpl1, hmg1, _, ⟨t, hct, htm⟩, _⟩ := getLatest_frame h
      refine ⟨hpl1.trans hpl, hmg1.trans hmg, ?_⟩
      intro e he
      rw [hct, List.mem_append] at he
      rcases he with he | he
      · exact hcall e he
      · rw [htm e he]
        exact hver
  cases op with
  | ver v =>
    show opInvariant pl magic (stateAfter m (asVersion m v))
    cases h : asVersion m v with
    | error e => exact ⟨hpl, hmg, hcall⟩
    | ok p =>
      obtain ⟨r, m1⟩ := p
      show opInvariant pl magic m1
      rcases asVersion_ok_cases h with ⟨hm, _, _⟩ | ⟨_, hn⟩
      · rw [hm]
        exact ⟨hpl, hmg, hcall⟩
      · obtain ⟨hpl1, hmg1, _, ⟨t, hct, htm⟩, _⟩ := getNum_frame v hn
        refine ⟨hpl1.trans hpl, hmg1.trans hmg, ?_⟩
        intro e he
        rw [hct, List.mem_append] at he
        rcases he with he | he
        · exact hcall e he
        · rw [(htm e he).1]
          exact hver
  | latest => exact hlat
  | callsOnly => exact hlat
  | json => exact hlat
  | uniq b => exact hlat

end PjsApi

namespace PjsApi

/-! ### Claim theorems -/

/-- C1: for every record with intrinsic version `s` (a known version) and
every known version `v` with `s ≤ v ≤ latest`, the version-`v` accessor
succeeds and returns exactly the representation obtained by applying the
`v - s` adjacent upgrade steps in ascending order starting from the native
payload (`chainRep`); in the boundary case `v = s` the resulting state is the
original record — the native representation is returned directly, with no
cache insertion. -/
theorem mv_C1_chain_completeness (m : MetadataVersioned) (v : Nat) (h9 : 9 ≤ m.version)
    (hsv : m.version ≤ v) (h15 : v ≤ 15) (hg : GoodCache m) :
    ∃ m1, asVersion m v = .ok (chainRep m.version m.payload.native v, m1) ∧
      (m.version = v → m1 = m) := by
  by_cases hv9 : v = 9
  · subst hv9
    have hv : m.version = 9 := by omega
    refine ⟨m, ?_, fun _ => rfl⟩
    unfold asVersion
    rw [if_pos rfl]
    have ha : asV9 m = .ok m.payload.native := by
      unfold asV9
      rw [assertVersion_eq hv]
    rw [ha, chainRep_le (by omega)]
    rfl
  · unfold asVersion
    rw [if_neg hv9]
    obtain ⟨m1, h1, _, hC, _, _⟩ := getNum_run v m h9 hsv hg
    exact ⟨m1, h1, hC⟩

/-- C2: for every record and known version `v`, a request strictly below the
intrinsic version fails with the downgrade error naming both versions — for
any cache contents whatsoever, since `#assertVersion` runs on every call
against the intrinsic version — and when `v` is at least the intrinsic
version the accessor succeeds, so the downgrade error never fires there. -/
theorem mv_C2_monotonicity (m : MetadataVersioned) (v : Nat) (h9 : 9 ≤ v) (h15 : v ≤ 15) :
    (v < m.version → asVersion m v = .error (.downgrade m.version v)) ∧
    (m.version ≤ v → ∃ r m1, asVersion m v = .ok (r, m1)) := by
  constructor
  · intro hlt
    by_cases hv9 : v = 9
    · subst hv9
      unfold asVersion
      rw [if_pos rfl]
      have ha : asV9 m = .error (.downgrade m.version 9) := by
        unfold asV9
        rw [assertVersion_gt hlt]
      rw [ha]
      rfl
    · unfold asVersion
      rw [if_neg hv9]
      exact getNum_err hlt
  · intro hle
    by_cases hv9 : v = 9
    · subst hv9
      unfold asVersion
      rw [if_pos rfl]
      have ha : asV9 m = .ok m.payload.native := by
        unfold asV9
        have h3 : ¬ (m.version > 9) := by omega
        simp [assertVersion, h3]
      rw [ha]
      exact ⟨m.payload.native, m, rfl⟩
    · unfold asVersion
      rw [if_neg hv9]
      exact getNum_total v m hle

/-- C3: for every record whose intrinsic version is a known version (at most
15, the latest), `asLatest` returns a representation structurally equal to
the one returned by the numeric latest accessor `asV15`. -/
theorem mv_C3_latest_stability (m : MetadataVersioned) (h9 : 9 ≤ m.version)
    (h15 : m.version ≤ 15) (hg : GoodCache m) :
    ∃ r m1 m2, asLatest m = .ok (r, m1) ∧ asV15 m = .ok (r, m2) := by
  obtain ⟨m1, hl, _, _, _, _, _, _, _⟩ := getLatest_run m h9 h15 hg
  obtain ⟨m2, hn, _, _, _, _⟩ := getNum_run 15 m h9 h15 hg
  exact ⟨chainRep m.version m.payload.native 15, m1, m2, hl, hn⟩

/-- C6: for every record with a known intrinsic version, `asCallsOnly`
succeeds and returns a brand-new record pinned at `TO_CALLS_VERSION` — which
is 14, not the latest known version 15 — with its own empty upgrade cache,
and `asLatest` on the produced record succeeds. -/
theorem mv_C6_calls_only (m : MetadataVersioned) (h15 : m.version ≤ 15) :
    ∃ c m1, asCallsOnly m = .ok (c, m1) ∧ c.version = TO_CALLS_VERSION ∧
      TO_CALLS_VERSION = 14 ∧ LATEST_VERSION = 15 ∧ c.converted = [] ∧ c.calls = [] ∧
      ∃ r c1, asLatest c = .ok (r, c1) := by
  obtain ⟨latest, m1, hl⟩ := getLatest_total m h15
  refine ⟨{ magicNumber := m.magicNumber,
            payload := createMetadataAll (toCallsOnly m1.registry latest) TO_CALLS_VERSION,
            registry := m1.registry, converted := [], calls := [] }, m1, ?_, rfl, rfl, rfl,
            rfl, rfl, ?_⟩
  · simp [asCallsOnly, hl]
  · refine getLatest_total _ ?_
    show TO_CALLS_VERSION ≤ 15
    rw [TO_CALLS_VERSION]
    omega

/-- C7: `toJSON` forces `asLatest` resolution first and only then delegates
to the underlying container's serialization, on the post-resolution state; in
particular the serialized output reflects the latest-version normalization
(the registry alias rewriting applied by `toLatest`) for every record,
whatever its intrinsic version. -/
theorem mv_C7_json_forces_latest (m : MetadataVersioned) (h9 : 9 ≤ m.version)
    (h15 : m.version ≤ 15) (hg : GoodCache m) :
    ∃ r m1, asLatest m = .ok (r, m1) ∧ m.toJSON = .ok (superToJSON m1, m1) ∧
      (superToJSON m1).normalizedAliases = true := by
  obtain ⟨m1, hl, _, _, _, hnorm, _, _, _⟩ := getLatest_run m h9 h15 hg
  refine ⟨chainRep m.version m.payload.native 15, m1, hl, ?_, ?_⟩
  · simp [MetadataVersioned.toJSON, hl]
  · simp [superToJSON, hnorm]

/-- C8: `getUniqTypes` operates on the record's latest representation; in
lenient mode it succeeds and the returned set still contains every referenced
identifier, resolvable or not; in strict mode, whenever some referenced
identifier is not resolvable by the registry, it fails with the error
carrying an unresolved identifier. -/
theorem mv_C8_uniq_types (m : MetadataVersioned) (h15 : m.version ≤ 15) :
    ∃ r m1, asLatest m = .ok (r, m1) ∧
      (∃ out, m.getUniqTypes false = .ok (out, m1) ∧ ∀ i ∈ refsOf r, i ∈ out) ∧
      ((∃ i ∈ refsOf r, i ∉ m1.registry.known) →
        ∃ j, m.getUniqTypes true = .error (.unresolvedType j) ∧ j ∈ refsOf r ∧
          j ∉ m1.registry.known) := by
  obtain ⟨r, m1, hl⟩ := getLatest_total m h15
  refine ⟨r, m1, hl, ?_, ?_⟩
  · obtain ⟨out, hout, hmem⟩ := collectUniq_false m1.registry (refsOf r)
    refine ⟨out, ?_, hmem⟩
    simp [MetadataVersioned.getUniqTypes, hl, hout]
  · intro hex
    obtain ⟨j, hj, hjm, hjk⟩ := collectUniq_true m1.registry (refsOf r) hex
    refine ⟨j, ?_, hjm, hjk⟩
    simp [MetadataVersioned.getUniqTypes, hl, hj]

/-- C10: `toJSON`, `asCallsOnly` and lenient `getUniqTypes` all force
`asLatest` on the source record: each succeeds and leaves the same state, in
which the `latest` cache entry and every numeric cache entry above the
intrinsic version are present, while the payload and the intrinsic version
are unchanged. -/
theorem mv_C10_derived_views_force_latest (m : MetadataVersioned) (h9 : 9 ≤ m.version)
    (h15 : m.version ≤ 15) (hg : GoodCache m) :
    ∃ m1, (∃ j, m.toJSON = .ok (j, m1)) ∧ (∃ c, asCallsOnly m = .ok (c, m1)) ∧
      (∃ out, m.getUniqTypes false = .ok (out, m1)) ∧
      mlookup m1.converted MKey.latest ≠ none ∧
      (∀ i, m.version < i → i ≤ 15 → mlookup m1.converted (MKey.num i) ≠ none) ∧
      m1.payload = m.payload ∧ m1.version = m.version := by
  obtain ⟨m1, hl, _, hlat, hpres, _, _, hpl, _⟩ := getLatest_run m h9 h15 hg
  obtain ⟨out, hout, _⟩ :=
    collectUniq_false m1.registry (refsOf (chainRep m.version m.payload.native 15))
  refine ⟨m1, ⟨superToJSON m1, ?_⟩,
    ⟨{ magicNumber := m.magicNumber,
       payload := createMetadataAll
         (toCallsOnly m1.registry (chainRep m.version m.payload.native 15)) TO_CALLS_VERSION,
       registry := m1.registry, converted := [], calls := [] }, ?_⟩,
    ⟨out, ?_⟩, hlat, hpres, hpl, ?_⟩
  · simp [MetadataVersioned.toJSON, hl]
  · simp [asCallsOnly, hl]
  · simp [MetadataVersioned.getUniqTypes, hl, hout]
  · rw [MetadataVersioned.version, MetadataVersioned.version, hpl]

end PjsApi

namespace PjsApi

/-- C4: accessors are memoized: a second identical call to a version accessor
or to `asLatest` returns the very same value-and-state pair (the cached
object, with no further state change); and over a record's whole lifetime —
any sequence of public accessor calls starting from a fresh record — the
upgrade function for each cache key is invoked at most once: the ghost trace
of upgrade invocations has pairwise-distinct keys. -/
theorem mv_C4_memoization :
    (∀ (m m1 : MetadataVersioned) (v : Nat) (r : Rep),
      asVersion m v = .ok (r, m1) → asVersion m1 v = .ok (r, m1)) ∧
    (∀ (m m1 : MetadataVersioned) (r : Rep),
      asLatest m = .ok (r, m1) → asLatest m1 = .ok (r, m1)) ∧
    (∀ (magic : Nat) (pl : Payload) (reg : Registry) (ops : List MVOp),
      ((runOps (freshRecord magic pl reg) ops).calls.map Prod.fst).Nodup) := by
  refine ⟨?_, ?_, ?_⟩
  · intro m m1 v r h
    rcases asVersion_ok_cases h with ⟨hm, h9, _⟩ | ⟨h9, hn⟩
    · rw [hm] at h ⊢
      exact h
    · unfold asVersion
      rw [if_neg h9]
      exact getNum_idem hn
  · intro m m1 r h
    obtain ⟨_, _, _, _, _, hidem, _⟩ := getLatest_frame h
    exact hidem
  · intro magic pl reg ops
    exact (runOps_inv applyOp_callsGood ops (freshRecord magic pl reg)
      (callsGood_of_empty rfl)).1

/-- C5: every upgrade-function invocation a record ever performs receives the
original record's intrinsic version as the `metaVersion` context argument —
never the version of the intermediate representation; concretely, a fresh
record of intrinsic version 9 resolves `asLatest` through the six numeric
steps to 10, 11, 12, 13, 14, 15 and the final latest conversion, each
invoked with context argument 9. -/
theorem mv_C5_original_version_context :
    (∀ (magic : Nat) (pl : Payload) (reg : Registry) (ops : List MVOp),
      ∀ e ∈ (runOps (freshRecord magic pl reg) ops).calls, e.2 = pl.index) ∧
    ((runOps (freshRecord 0 { index := 9, native := Rep.nativeV 9 [] }
        { normalized := false, known := [] }) [MVOp.latest]).calls =
      [(MKey.num 10, 9), (MKey.num 11, 9), (MKey.num 12, 9), (MKey.num 13, 9),
       (MKey.num 14, 9), (MKey.num 15, 9), (MKey.latest, 9)]) := by
  constructor
  · intro magic pl reg ops
    refine (runOps_inv (applyOp_opInvariant pl magic) ops (freshRecord magic pl reg)
      ⟨rfl, rfl, ?_⟩).2.2
    intro e he
    cases he
  · rfl

/-- C9: the accessors mutate only the private upgrade cache: any successful
`asVersion` or `asLatest` call, and any sequence of public accessor calls on
a fresh record, leaves the wrapped payload, the intrinsic version tag and the
magic number unchanged. -/
theorem mv_C9_accessors_frame :
    (∀ (m m1 : MetadataVersioned) (v : Nat) (r : Rep), asVersion m v = .ok (r, m1) →
      m1.payload = m.payload ∧ m1.version = m.version ∧ m1.magicNumber = m.magicNumber) ∧
    (∀ (m m1 : MetadataVersioned) (r : Rep), asLatest m = .ok (r, m1) →
      m1.payload = m.payload ∧ m1.version = m.version ∧ m1.magicNumber = m.magicNumber) ∧
    (∀ (magic : Nat) (pl : Payload) (reg : Registry) (ops : List MVOp),
      (runOps (freshRecord magic pl reg) ops).payload = pl ∧
      (runOps (freshRecord magic pl reg) ops).version = pl.index ∧
      (runOps (freshRecord magic pl reg) ops).magicNumber = magic) := by
  refine ⟨?_, ?_, ?_⟩
  · intro m m1 v r h
    rcases asVersion_ok_cases h with ⟨hm, _, _⟩ | ⟨_, hn⟩
    · rw [hm]
      exact ⟨rfl, rfl, rfl⟩
    · obtain ⟨hpl, hmg, _⟩ := getNum_frame v hn
      refine ⟨hpl, ?_, hmg⟩
      rw [MetadataVersioned.version, MetadataVersioned.version, hpl]
  · intro m m1 r h
    obtain ⟨hpl, hmg, _⟩ := getLatest_frame h
    refine ⟨hpl, ?_, hmg⟩
    rw [MetadataVersioned.version, MetadataVersioned.version, hpl]
  · intro magic pl reg ops
    have h := runOps_inv (applyOp_opInvariant pl magic) ops (freshRecord magic pl reg)
      ⟨rfl, rfl, by intro e he; cases he⟩
    refine ⟨h.1, ?_, h.2.1⟩
    rw [MetadataVersioned.version, h.1]

end PjsApi

namespace PjsApi

/-! ### Concrete sample data and witnesses -/

def demoReg : Registry := { normalized := false, known := ["u32"] }

def demoRec12 : MetadataVersioned :=
  freshRecord 1635018093 { index := 12, native := Rep.nativeV 12 ["u32"] } demoReg

def demoRec8 : MetadataVersioned :=
  freshRecord 1635018093 { index := 13, native := Rep.nativeV 13 ["u32", "Unknown"] } demoReg

def demoRec4 : MetadataVersioned :=
  freshRecord 7 { index := 13, native := Rep.nativeV 13 [] } demoReg

def demoRep4 : Rep := Rep.upgraded 14 13 (Rep.nativeV 13 [])

def demoRec4b : MetadataVersioned :=
  { demoRec4 with converted := [(MKey.num 14, demoRep4)], calls := [(MKey.num 14, 13)] }

def demoRec9 : MetadataVersioned :=
  freshRecord 7 { index := 10, native := Rep.nativeV 10 [] } demoReg

def demoRep9 : Rep := Rep.upgraded 11 10 (Rep.nativeV 10 [])

def demoRec9b : MetadataVersioned :=
  { demoRec9 with converted := [(MKey.num 11, demoRep9)], calls := [(MKey.num 11, 10)] }

def demoRec7 : MetadataVersioned :=
  freshRecord 7 { index := 15, native := Rep.nativeV 15 ["u32"] } demoReg

def demoRec10 : MetadataVersioned :=
  freshRecord 7 { index := 14, native := Rep.nativeV 14 ["u32"] } demoReg

theorem mv_C1_witness :
    (9 ≤ demoRec12.version ∧ demoRec12.version ≤ 14 ∧ (14 : Nat) ≤ 15 ∧
      GoodCache demoRec12) ∧
    ∃ m1, asVersion demoRec12 14 =
        .ok (chainRep demoRec12.version demoRec12.payload.native 14, m1) ∧
      (demoRec12.version = 14 → m1 = demoRec12) :=
  ⟨⟨by decide, by decide, by decide, goodCache_of_empty rfl⟩,
    mv_C1_chain_completeness demoRec12 14 (by decide) (by decide) (by decide)
      (goodCache_of_empty rfl)⟩

theorem mv_C2_witness :
    (9 ≤ (10 : Nat) ∧ (10 : Nat) ≤ 15) ∧
    ((10 < demoRec12.version →
        asVersion demoRec12 10 = .error (.downgrade demoRec12.version 10)) ∧
     (demoRec12.version ≤ 10 → ∃ r m1, asVersion demoRec12 10 = .ok (r, m1))) :=
  ⟨⟨by decide, by decide⟩, mv_C2_monotonicity demoRec12 10 (by decide) (by decide)⟩

theorem mv_C3_witness :
    (9 ≤ demoRec12.version ∧ demoRec12.version ≤ 15 ∧ GoodCache demoRec12) ∧
    ∃ r m1 m2, asLatest demoRec12 = .ok (r, m1) ∧ asV15 demoRec12 = .ok (r, m2) :=
  ⟨⟨by decide, by decide, goodCache_of_empty rfl⟩,
    mv_C3_latest_stability demoRec12 (by decide) (by decide) (goodCache_of_empty rfl)⟩

theorem mv_C4_witness :
    asVersion demoRec4 14 = .ok (demoRep4, demoRec4b) ∧
    asVersion demoRec4b 14 = .ok (demoRep4, demoRec4b) :=
  ⟨by rfl, mv_C4_memoization.1 demoRec4 demoRec4b 14 demoRep4 (by rfl)⟩

theorem mv_C5_witness :
    ((MKey.num 12, 11) ∈ (runOps (freshRecord 7 { index := 11, native := Rep.nativeV 11 [] }
        demoReg) [MVOp.ver 12]).calls) ∧
    ((MKey.num 12, 11) : MKey × Nat).2 =
      ({ index := 11, native := Rep.nativeV 11 [] } : Payload).index :=
  ⟨by decide,
    mv_C5_original_version_context.1 7 { index := 11, native := Rep.nativeV 11 [] } demoReg
      [MVOp.ver 12] (MKey.num 12, 11) (by decide)⟩

theorem mv_C6_witness :
    demoRec8.version ≤ 15 ∧
    ∃ c m1, asCallsOnly demoRec8 = .ok (c, m1) ∧ c.version = TO_CALLS_VERSION ∧
      TO_CALLS_VERSION = 14 ∧ LATEST_VERSION = 15 ∧ c.converted = [] ∧ c.calls = [] ∧
      ∃ r c1, asLatest c = .ok (r, c1) :=
  ⟨by decide, mv_C6_calls_only demoRec8 (by decide)⟩

theorem mv_C7_witness :
    (9 ≤ demoRec7.version ∧ demoRec7.version ≤ 15 ∧ GoodCache demoRec7) ∧
    ∃ r m1, asLatest demoRec7 = .ok (r, m1) ∧
      demoRec7.toJSON = .ok (superToJSON m1, m1) ∧
      (superToJSON m1).normalizedAliases = true :=
  ⟨⟨by decide, by decide, goodCache_of_empty rfl⟩,
    mv_C7_json_forces_latest demoRec7 (by decide) (by decide) (goodCache_of_empty rfl)⟩

theorem mv_C8_witness :
    demoRec8.version ≤ 15 ∧
    ∃ r m1, asLatest demoRec8 = .ok (r, m1) ∧
      (∃ out, demoRec8.getUniqTypes false = .ok (out, m1) ∧ ∀ i ∈ refsOf r, i ∈ out) ∧
      ((∃ i ∈ refsOf r, i ∉ m1.registry.known) →
        ∃ j, demoRec8.getUniqTypes true = .error (.unresolvedType j) ∧ j ∈ refsOf r ∧
          j ∉ m1.registry.known) :=
  ⟨by decide, mv_C8_uniq_types demoRec8 (by decide)⟩

theorem mv_C9_witness :
    asVersion demoRec9 11 = .ok (demoRep9, demoRec9b) ∧
    (demoRec9b.payload = demoRec9.payload ∧ demoRec9b.version = demoRec9.version ∧
     demoRec9b.magicNumber = demoRec9.magicNumber) :=
  ⟨by rfl, mv_C9_accessors_frame.1 demoRec9 demoRec9b 11 demoRep9 (by rfl)⟩

theorem mv_C10_witness :
    (9 ≤ demoRec10.version ∧ demoRec10.version ≤ 15 ∧ GoodCache demoRec10) ∧
    ∃ m1, (∃ j, demoRec10.toJSON = .ok (j, m1)) ∧
      (∃ c, asCallsOnly demoRec10 = .ok (c, m1)) ∧
      (∃ out, demoRec10.getUniqTypes false = .ok (out, m1)) ∧
      mlookup m1.converted MKey.latest ≠ none ∧
      (∀ i, demoRec10.version < i → i ≤ 15 → mlookup m1.converted (MKey.num i) ≠ none) ∧
      m1.payload = demoRec10.payload ∧ m1.version = demoRec10.version :=
  ⟨⟨by decide, by decide, goodCache_of_empty rfl⟩,
    mv_C10_derived_views_force_latest demoRec10 (by decide) (by decide)
      (goodCache_of_empty rfl)⟩

end PjsApi
